import Mathlib

/-!
Shallow embedding of the chunk-extraction and batched-ingestion core of the
semantic-code-navigator repository (`src/code_ingestion.py`,
`src/mindsdb_client.py`), together with theorems settling the frozen claims
about it.

Conventions of the embedding:
* Python strings are modelled as `String` / `List Char`; `str.split('\n')`
  is `splitLines`, `'\n'.join` is `joinLines`, `str.strip()` is `pyStrip`.
* The regular expressions of `extract_functions_fallback` are embedded as
  deterministic matchers (`pyDefMatch`, `jsMatch1` .. `jsMatch4`) that follow
  the backtracking semantics of the concrete patterns on newline-free lines;
  `\s` is modelled by the ASCII whitespace class `isPySpace`.
* External collaborators (the git library, the MindsDB store, the
  filesystem) are modelled as explicit oracle arguments.
-/

/-- ASCII whitespace, the characters matched by Python's `\s` and stripped
by `str.strip()` on ASCII input. -/
def isPySpace (c : Char) : Bool :=
  c = ' ' || c = '\t' || c = '\n' || c = '\r' || c = '\x0b' || c = '\x0c'

/-- Truthiness of `line.strip()`: the line has a non-whitespace character. -/
def nonBlank (l : List Char) : Bool :=
  l.any (fun c => !(isPySpace c))

/-- `str.strip()` on a character list. -/
def pyStrip (l : List Char) : List Char :=
  ((l.dropWhile isPySpace).reverse.dropWhile isPySpace).reverse

/-- Model of Python `content.split('\n')`. -/
def splitLines : List Char → List (List Char)
  | [] => [[]]
  | c :: rest =>
    if c = '\n' then [] :: splitLines rest
    else
      match splitLines rest with
      | l :: ls => (c :: l) :: ls
      | [] => [[c]]

/-- Model of Python `'\n'.join(lines)`. -/
def joinLines : List (List Char) → List Char
  | [] => []
  | [l] => l
  | l :: ls => l ++ '\n' :: joinLines ls

/-- `[a-zA-Z_]`, the first character of an identifier in the patterns. -/
def isIdentStart (c : Char) : Bool := c.isAlpha || c = '_'

/-- `[a-zA-Z0-9_]`, a later character of an identifier in the patterns. -/
def isIdentChar (c : Char) : Bool := c.isAlphanum || c = '_'

/-- `line.startswith(' ' * k)`. -/
def startsWithSpaces (k : Nat) (l : List Char) : Bool :=
  l.take k = List.replicate k ' '

/-- The remainder of the lazy tail `.*?\):` of the Python def/class pattern:
some suffix position carries `)` immediately followed by `:`. -/
def hasCloseParenColon : List Char → Bool
  | [] => false
  | c :: rest => (c = ')' && rest.head? = some ':') || hasCloseParenColon rest

/-- Matcher for `^(\s*)(def|class)\s+([a-zA-Z_][a-zA-Z0-9_]*)\s*\(.*?\):`
(`re.match`), returning `(len(group 1), group 2, group 3)` on success. -/
def pyDefMatch (line : List Char) : Option (Nat × String × String) :=
  let ws := line.takeWhile isPySpace
  let r1 := line.dropWhile isPySpace
  let kw? : Option (String × List Char) :=
    if r1.take 3 = ['d', 'e', 'f'] then some ("def", r1.drop 3)
    else if r1.take 5 = ['c', 'l', 'a', 's', 's'] then some ("class", r1.drop 5)
    else none
  match kw? with
  | none => none
  | some (kw, r2) =>
    match r2.head? with
    | none => none
    | some c =>
      if isPySpace c then
        let r3 := r2.dropWhile isPySpace
        match r3.head? with
        | none => none
        | some d =>
          if isIdentStart d then
            let name := r3.takeWhile isIdentChar
            let r4 := (r3.dropWhile isIdentChar).dropWhile isPySpace
            match r4 with
            | '(' :: r5 =>
              if hasCloseParenColon r5 then some (ws.length, kw, String.mk name) else none
            | _ => none
          else none
      else none

/-- The block-end scan of the Python branch of `extract_functions_fallback`
(lines 119-124 of `code_ingestion.py`): starting at index `j` over the tail
`rest` of the line list, return the index just before the first line that is
non-blank, does not start with `k+1` spaces, and starts with `k` spaces;
return `deflt` (initialised to `len(lines) - 1`) when no such line occurs. -/
def pyFindEnd (k deflt : Nat) : List (List Char) → Nat → Nat
  | [], _ => deflt
  | l :: rest, j =>
    if nonBlank l && !(startsWithSpaces (k + 1) l) then
      if startsWithSpaces k l && nonBlank l then j - 1
      else pyFindEnd k deflt rest (j + 1)
    else pyFindEnd k deflt rest (j + 1)

/-- The intermediate chunk record built by `extract_functions_fallback`. -/
structure RawChunk where
  name : String
  type : String
  content : List Char
  start_line : Nat
  end_line : Nat
  line_range : String
  deriving DecidableEq, Repr

/-- The chunk the Python branch appends for a match `(k, kw, name)` found on
line index `i` (0-indexed): lines `i .. e` joined, 1-indexed line numbers. -/
def pyChunkAt (lines : List (List Char)) (i k : Nat) (kw name : String) : RawChunk :=
  let e := pyFindEnd k (lines.length - 1) (lines.drop (i + 1)) (i + 1)
  { name := name
    type := kw
    content := joinLines ((lines.drop i).take (e + 1 - i))
    start_line := i + 1
    end_line := e + 1
    line_range := toString (i + 1) ++ "-" ++ toString (e + 1) }

/-- The Python branch of `extract_functions_fallback`: one chunk per line
matching the def/class pattern. -/
def pyExtract (lines : List (List Char)) : List RawChunk :=
  lines.enum.filterMap fun p =>
    match pyDefMatch p.2 with
    | none => none
    | some (k, kw, name) => some (pyChunkAt lines p.1 k kw name)

/-- The remainder of the lazy tail `\(.*?\)\s*\{` after its `(`: some suffix
position carries `)` followed by whitespace and then `{`. -/
def hasParenBrace : List Char → Bool
  | [] => false
  | c :: rest =>
    (c = ')' && (rest.dropWhile isPySpace).head? = some '{') || hasParenBrace rest

/-- The remainder of the lazy tail `.*?=>\s*\{`: some suffix position
carries `=>` followed by whitespace and then `{`. -/
def hasArrowBrace : List Char → Bool
  | [] => false
  | c :: rest =>
    (c = '=' && rest.head? = some '>' &&
      ((rest.drop 1).dropWhile isPySpace).head? = some '{')
    || hasArrowBrace rest

/-- Strip a literal keyword prefix, returning the remainder on success. -/
def chompKw (kw : List Char) (cs : List Char) : Option (List Char) :=
  if cs.take kw.length = kw then some (cs.drop kw.length) else none

/-- After a keyword, consume `\s+` then an identifier `[a-zA-Z_][a-zA-Z0-9_]*`,
returning the identifier and the remainder after it. -/
def chompSpaceIdent (cs : List Char) : Option (List Char × List Char) :=
  match cs.head? with
  | none => none
  | some c =>
    if isPySpace c then
      let r := cs.dropWhile isPySpace
      match r.head? with
      | none => none
      | some d =>
        if isIdentStart d then some (r.takeWhile isIdentChar, r.dropWhile isIdentChar)
        else none
    else none

/-- Pattern 1: `^(\s*)(function)\s+([a-zA-Z_][a-zA-Z0-9_]*)\s*\(.*?\)\s*\{`.
Returns `(len(group 1), group 3)`. -/
def jsMatch1 (line : List Char) : Option (Nat × String) :=
  let ws := line.takeWhile isPySpace
  let r := line.dropWhile isPySpace
  match chompKw ['f', 'u', 'n', 'c', 't', 'i', 'o', 'n'] r with
  | none => none
  | some r2 =>
    match chompSpaceIdent r2 with
    | none => none
    | some (name, r3) =>
      match r3.dropWhile isPySpace with
      | '(' :: r4 => if hasParenBrace r4 then some (ws.length, String.mk name) else none
      | _ => none

/-- Pattern 2: `^(\s*)(const|let|var)\s+([a-zA-Z_][a-zA-Z0-9_]*)\s*=\s*.*?=>\s*\{`.
Returns `(len(group 1), group 3)`. -/
def jsMatch2 (line : List Char) : Option (Nat × String) :=
  let ws := line.takeWhile isPySpace
  let r := line.dropWhile isPySpace
  let kw? := (chompKw ['c', 'o', 'n', 's', 't'] r) <|> (chompKw ['l', 'e', 't'] r) <|>
    (chompKw ['v', 'a', 'r'] r)
  match kw? with
  | none => none
  | some r2 =>
    match chompSpaceIdent r2 with
    | none => none
    | some (name, r3) =>
      match r3.dropWhile isPySpace with
      | '=' :: r4 => if hasArrowBrace r4 then some (ws.length, String.mk name) else none
      | _ => none

/-- Pattern 3: `^(\s*)(class)\s+([a-zA-Z_][a-zA-Z0-9_]*)\s*\{`.
Returns `(len(group 1), group 3)`. -/
def jsMatch3 (line : List Char) : Option (Nat × String) :=
  let ws := line.takeWhile isPySpace
  let r := line.dropWhile isPySpace
  match chompKw ['c', 'l', 'a', 's', 's'] r with
  | none => none
  | some r2 =>
    match chompSpaceIdent r2 with
    | none => none
    | some (name, r3) =>
      match r3.dropWhile isPySpace with
      | '{' :: _ => some (ws.length, String.mk name)
      | _ => none

/-- Pattern 4: `^(\s*)([a-zA-Z_][a-zA-Z0-9_]*)\s*\(.*?\)\s*\{`; this pattern
has only two groups, so the extractor uses group 2 as the name. -/
def jsMatch4 (line : List Char) : Option (Nat × String) :=
  let ws := line.takeWhile isPySpace
  let r := line.dropWhile isPySpace
  match r.head? with
  | none => none
  | some d =>
    if isIdentStart d then
      let name := r.takeWhile isIdentChar
      match (r.dropWhile isIdentChar).dropWhile isPySpace with
      | '(' :: r4 => if hasParenBrace r4 then some (ws.length, String.mk name) else none
      | _ => none
    else none

/-- The four javascript/typescript patterns tried in order; the first match
wins for a line. -/
def jsMatch (line : List Char) : Option (Nat × String) :=
  (jsMatch1 line) <|> (jsMatch2 line) <|> (jsMatch3 line) <|> (jsMatch4 line)

/-- `line.count('{') - line.count('}')` as an integer. -/
def braceDelta (l : List Char) : Int :=
  (l.count '{' : Int) - (l.count '}' : Int)

/-- The brace-balance scan of the javascript branch (lines 154-161 of
`code_ingestion.py`): running balance `bal` after the opening line, scanning
the tail `rest` whose first line has index `j`; the first line bringing the
balance to zero is the end, otherwise `deflt` (initialised to the opening
line's index `i`). -/
def jsFindEnd (deflt : Nat) : List (List Char) → Nat → Int → Nat
  | [], _, _ => deflt
  | l :: rest, j, bal =>
    let bal2 := bal + braceDelta l
    if bal2 = 0 then j else jsFindEnd deflt rest (j + 1) bal2

/-- The chunk the javascript branch appends for a match `(k, name)` found on
line index `i`; the recorded type is always `"function"`. -/
def jsChunkAt (lines : List (List Char)) (i : Nat) (name : String) : RawChunk :=
  let l := (lines.drop i).headD []
  let e := jsFindEnd i (lines.drop (i + 1)) (i + 1) (braceDelta l)
  { name := name
    type := "function"
    content := joinLines ((lines.drop i).take (e + 1 - i))
    start_line := i + 1
    end_line := e + 1
    line_range := toString (i + 1) ++ "-" ++ toString (e + 1) }

/-- The javascript/typescript branch of `extract_functions_fallback`: at most
one chunk per line (the pattern loop breaks after the first match). -/
def jsExtract (lines : List (List Char)) : List RawChunk :=
  lines.enum.filterMap fun p =>
    match jsMatch p.2 with
    | none => none
    | some (_, name) => some (jsChunkAt lines p.1 name)

/-- Number of 50-line windows laid over the file by the fallback slicer:
iterations of `range(0, len(lines), 50)`. -/
def numWindows (lines : List (List Char)) : Nat :=
  (lines.length + 49) / 50

/-- The fallback window chunk for window index `w` (0-indexed), before the
non-blank filter: lines `50*w .. min(50*w+50, len) - 1`. -/
def windowChunkAt (lines : List (List Char)) (w : Nat) : RawChunk :=
  { name := "chunk_" ++ toString (w + 1)
    type := "code_chunk"
    content := joinLines ((lines.drop (50 * w)).take 50)
    start_line := 50 * w + 1
    end_line := min (50 * w + 50) lines.length
    line_range := toString (50 * w + 1) ++ "-" ++ toString (min (50 * w + 50) lines.length) }

/-- The fallback slicing of `extract_functions_fallback` (lines 175-189):
fixed 50-line windows, keeping only windows whose joined content is
non-blank. -/
def fallbackChunks (lines : List (List Char)) : List RawChunk :=
  (List.range (numWindows lines)).filterMap fun w =>
    if nonBlank (windowChunkAt lines w).content then some (windowChunkAt lines w) else none

/-- The pattern-based part of `extract_functions_fallback`: the Python
branch for `'python'`, the brace branch for `'javascript'`/`'typescript'`,
nothing for other languages. -/
def patternChunks (lines : List (List Char)) (language : String) : List RawChunk :=
  if language = "python" then pyExtract lines
  else if language = "javascript" || language = "typescript" then jsExtract lines
  else []

/-- `extract_functions_fallback(content, language)`: the pattern chunks of
the matching language branch; when no pattern chunk was produced, the
fallback slicing of the same lines. -/
def extractFunctionsFallback (content : String) (language : String) : List RawChunk :=
  let lines := splitLines content.toList
  let functions := patternChunks lines language
  if functions.isEmpty then fallbackChunks lines else functions

/-! ### MD5 (the `hashlib.md5(...).hexdigest()` call of `process_file`),
over byte lists represented as natural numbers below 256. -/

/-- `2 ^ 32`. -/
def M32 : Nat := 4294967296

/-- Bitwise complement on 32-bit words. -/
def not32 (x : Nat) : Nat := Nat.xor x (M32 - 1)

/-- Left rotation of a 32-bit word by `s` places. -/
def rotl32 (x s : Nat) : Nat := (x * 2 ^ s + x / 2 ^ (32 - s)) % M32

/-- The 64 MD5 sine constants `floor(2^32 * abs(sin(i + 1)))`. -/
def mdKTable : List Nat :=
  [3614090360, 3905402710, 606105819, 3250441966, 4118548399, 1200080426, 2821735955, 4249261313,
   1770035416, 2336552879, 4294925233, 2304563134, 1804603682, 4254626195, 2792965006, 1236535329,
   4129170786, 3225465664, 643717713, 3921069994, 3593408605, 38016083, 3634488961, 3889429448,
   568446438, 3275163606, 4107603335, 1163531501, 2850285829, 4243563512, 1735328473, 2368359562,
   4294588738, 2272392833, 1839030562, 4259657740, 2763975236, 1272893353, 4139469664, 3200236656,
   681279174, 3936430074, 3572445317, 76029189, 3654602809, 3873151461, 530742520, 3299628645,
   4096336452, 1126891415, 2878612391, 4237533241, 1700485571, 2399980690, 4293915773, 2240044497,
   1873313359, 4264355552, 2734768916, 1309151649, 4149444226, 3174756917, 718787259, 3951481745]

/-- The 64 MD5 per-round shift amounts. -/
def mdSTable : List Nat :=
  [7, 12, 17, 22, 7, 12, 17, 22, 7, 12, 17, 22, 7, 12, 17, 22,
   5, 9, 14, 20, 5, 9, 14, 20, 5, 9, 14, 20, 5, 9, 14, 20,
   4, 11, 16, 23, 4, 11, 16, 23, 4, 11, 16, 23, 4, 11, 16, 23,
   6, 10, 15, 21, 6, 10, 15, 21, 6, 10, 15, 21, 6, 10, 15, 21]

/-- The four 32-bit registers of the MD5 state. -/
structure MD5State where
  a : Nat
  b : Nat
  c : Nat
  d : Nat

/-- One of the 64 MD5 operations, `m` giving the block's 16 message words. -/
def md5Round (m : Nat → Nat) (st : MD5State) (i : Nat) : MD5State :=
  let f :=
    if i < 16 then Nat.lor (Nat.land st.b st.c) (Nat.land (not32 st.b) st.d)
    else if i < 32 then Nat.lor (Nat.land st.b st.d) (Nat.land st.c (not32 st.d))
    else if i < 48 then Nat.xor (Nat.xor st.b st.c) st.d
    else Nat.xor st.c (Nat.lor st.b (not32 st.d))
  let g :=
    if i < 16 then i
    else if i < 32 then (5 * i + 1) % 16
    else if i < 48 then (3 * i + 5) % 16
    else (7 * i) % 16
  let x := (f + st.a + mdKTable.getD i 0 + m g) % M32
  { a := st.d, b := (st.b + rotl32 x (mdSTable.getD i 0)) % M32, c := st.b, d := st.c }

/-- Message word `g` of a 64-byte block, little-endian. -/
def wordAt (block : List Nat) (g : Nat) : Nat :=
  block.getD (4 * g) 0 + 256 * block.getD (4 * g + 1) 0 +
    65536 * block.getD (4 * g + 2) 0 + 16777216 * block.getD (4 * g + 3) 0

/-- Process one 64-byte block. -/
def md5Block (st : MD5State) (block : List Nat) : MD5State :=
  let e := (List.range 64).foldl (md5Round (wordAt block)) st
  { a := (st.a + e.a) % M32, b := (st.b + e.b) % M32,
    c := (st.c + e.c) % M32, d := (st.d + e.d) % M32 }

/-- The 8-byte little-endian encoding of `n` (mod `2^64`). -/
def le8 (n : Nat) : List Nat := (List.range 8).map fun i => n / 2 ^ (8 * i) % 256

/-- The 4-byte little-endian encoding of a 32-bit word. -/
def le4 (n : Nat) : List Nat := [n % 256, n / 256 % 256, n / 65536 % 256, n / 16777216 % 256]

/-- MD5 padding: `0x80`, zeros to 56 mod 64, then the bit length. -/
def padMsg (msg : List Nat) : List Nat :=
  msg ++ 128 :: List.replicate ((119 - msg.length % 64) % 64) 0 ++
    le8 (msg.length * 8 % 2 ^ 64)

/-- The padded message cut into 64-byte blocks. -/
def md5Blocks (msg : List Nat) : List (List Nat) :=
  let padded := padMsg msg
  (List.range (padded.length / 64)).map fun b => (padded.drop (64 * b)).take 64

/-- The 16-byte MD5 digest of a byte list. -/
def md5Bytes (msg : List Nat) : List Nat :=
  let st := (md5Blocks msg).foldl md5Block
    { a := 1732584193, b := 4023233417, c := 2562383102, d := 271733878 }
  le4 st.a ++ le4 st.b ++ le4 st.c ++ le4 st.d

/-- Lowercase hexadecimal digit for `n < 16` (total, with `'f'` past 15). -/
def hexChar : Nat → Char
  | 0 => '0' | 1 => '1' | 2 => '2' | 3 => '3' | 4 => '4' | 5 => '5' | 6 => '6' | 7 => '7'
  | 8 => '8' | 9 => '9' | 10 => 'a' | 11 => 'b' | 12 => 'c' | 13 => 'd' | 14 => 'e' | _ => 'f'

/-- Two lowercase hex digits of a byte. -/
def byteHex (b : Nat) : List Char := [hexChar (b / 16 % 16), hexChar (b % 16)]

/-- `hashlib.md5(msg).hexdigest()` as a character list (32 hex digits). -/
def md5Hex (msg : List Nat) : List Char := (md5Bytes msg).flatMap byteHex

/-- UTF-8 encoding of one character (Python `str.encode()`). -/
def utf8Encode (c : Char) : List Nat :=
  let n := c.toNat
  if n < 128 then [n]
  else if n < 2048 then [192 + n / 64, 128 + n % 64]
  else if n < 65536 then [224 + n / 4096, 128 + n / 64 % 64, 128 + n % 64]
  else [240 + n / 262144, 128 + n / 4096 % 64, 128 + n / 64 % 64, 128 + n % 64]

/-- UTF-8 bytes of a string. -/
def strBytes (s : String) : List Nat := s.toList.flatMap utf8Encode

/-- The chunk identifier of `process_file` (lines 254-257):
`hashlib.md5(f"{repo_url}:{rel_path}:{name}".encode()).hexdigest()[:12]`. -/
def chunkId (repoUrl relPath name : String) : String :=
  String.mk ((md5Hex (strBytes (repoUrl ++ ":" ++ relPath ++ ":" ++ name))).take 12)

/-- `LANGUAGE_MAPPING.get(file_ext, 'text')` on the lower-cased extension. -/
def languageMapping (ext : String) : String :=
  if ext = ".py" then "python"
  else if ext = ".js" then "javascript"
  else if ext = ".jsx" then "javascript"
  else if ext = ".ts" then "typescript"
  else if ext = ".tsx" then "typescript"
  else if ext = ".go" then "go"
  else if ext = ".java" then "java"
  else if ext = ".rs" then "rust"
  else if ext = ".cpp" then "cpp"
  else if ext = ".cc" then "cpp"
  else if ext = ".cxx" then "cpp"
  else if ext = ".c" then "c"
  else if ext = ".h" then "c"
  else if ext = ".hpp" then "cpp"
  else "text"

/-- The metadata dict built by `extract_git_metadata`. -/
structure GitMeta where
  author : Option String
  last_modified : String
  repo : String
  commit_hash : Option String
  deriving DecidableEq, Repr

/-- `extract_git_metadata(repo_path, file_path, extract_git_info)` with the
external git library modelled by oracles: `gitRepoOk` is false when opening
the repository or listing commits raises (the outer `except` path),
`lastCommit` is the most recent commit touching the file as
`(author, iso_timestamp, hash8)` if any, `originUrl` is `repo.remote('origin').url`
when that lookup succeeds, and `fsMtime` is the file's filesystem
modification time, ISO formatted. -/
def extractGitMetadata (repoPath : String) (extractGitInfo : Bool) (gitRepoOk : Bool)
    (lastCommit : Option (String × String × String)) (originUrl : Option String)
    (fsMtime : String) : GitMeta :=
  if extractGitInfo then
    if gitRepoOk then
      { author := lastCommit.map fun m => m.1
        last_modified := match lastCommit with
          | some m => m.2.1
          | none => fsMtime
        commit_hash := lastCommit.map fun m => m.2.2
        repo := match originUrl with
          | some u => u
          | none => repoPath }
    else
      { author := none, last_modified := fsMtime, repo := repoPath, commit_hash := none }
  else
    { author := none, last_modified := fsMtime, repo := repoPath, commit_hash := none }

/-- The record inserted into the knowledge base, as assembled by
`process_file` (lines 263-283). -/
structure Chunk where
  code_chunk : List Char
  filepath : String
  language : String
  function_name : String
  repo : String
  last_modified : String
  chunk_id : String
  author : String
  line_range : String
  deriving DecidableEq, Repr

/-- `process_file(file_path, repo_path, repo_url, extract_git_info)` after
the file has been read: `content` is the file's text, `relativePath` is
`os.path.relpath(file_path, repo_path)`, `fileExt` the lower-cased
extension, and `gitMetadata` the dict returned by `extract_git_metadata`. -/
def processFile (content : String) (relativePath : String) (fileExt : String)
    (repoUrl : String) (gitMetadata : GitMeta) (extractGitInfo : Bool) : List Chunk :=
  if !(nonBlank content.toList) then []
  else
    let language := languageMapping fileExt
    let functions := extractFunctionsFallback content language
    functions.map fun func =>
      { code_chunk := pyStrip func.content
        filepath := relativePath
        language := language
        function_name := func.name
        repo := repoUrl
        last_modified := gitMetadata.last_modified
        chunk_id := chunkId repoUrl relativePath func.name
        author := if extractGitInfo then (gitMetadata.author.getD "") else ""
        line_range := if extractGitInfo then func.line_range else "" }

/-! ### The Batch Writer (`MindsDBClient.insert_data`, lines 106-194 of
`mindsdb_client.py`). -/

/-- The three-way outcome `insert_data` reports: every batch landed, some
but not all landed (with the successful and total batch counts), or no
batch landed. -/
inductive WriteOutcome where
  | success : WriteOutcome
  | mixed : Nat → Nat → WriteOutcome
  | failure : WriteOutcome
  deriving DecidableEq, Repr

/-- `batch_size = min(batch_size or config.stress_test.batch_size, 25)`:
`0`/`None` are falsy and fall back to the configured default. -/
def effectiveBatchSize (requested : Option Nat) (configDefault : Nat) : Nat :=
  min (match requested with
        | some b => if b = 0 then configDefault else b
        | none => configDefault) 25

/-- A batch succeeds when one of its `max_retries = 3` attempts succeeds;
`attemptOk b t` is the oracle for attempt `t` of batch index `b` against
the external store. -/
def batchSucceeds (attemptOk : Nat → Nat → Bool) (b : Nat) : Bool :=
  (List.range 3).any (attemptOk b)

/-- `total_batches = (len(data) + batch_size - 1) // batch_size`. -/
def totalBatches (n batchSize : Nat) : Nat := (n + batchSize - 1) / batchSize

/-- The number of batches whose attempt loop ended in `successful_batches += 1`. -/
def successfulBatches (n batchSize : Nat) (attemptOk : Nat → Nat → Bool) : Nat :=
  (List.range (totalBatches n batchSize)).countP (batchSucceeds attemptOk)

/-- The outcome classification of `insert_data` on `n` records with the
effective batch size `batchSize`: empty input reports success immediately;
otherwise all/some/none of the batches succeeded. -/
def insertData (n batchSize : Nat) (attemptOk : Nat → Nat → Bool) : WriteOutcome :=
  if n = 0 then WriteOutcome.success
  else
    let total := totalBatches n batchSize
    let succ := successfulBatches n batchSize attemptOk
    if succ = total then WriteOutcome.success
    else if 0 < succ then WriteOutcome.mixed succ total
    else WriteOutcome.failure

/-! ### File discovery (`discover_code_files`, lines 79-100). -/

/-- A filesystem tree: named files and named directories with entries. -/
inductive FSTree where
  | file : String → FSTree
  | dir : String → List FSTree → FSTree

/-- `os.path.splitext(name)[1]`: the suffix from the last dot, unless every
character before that dot is itself a dot. -/
def fileExt (cs : List Char) : List Char :=
  let rest := cs.dropWhile fun c => c = '.'
  if rest.contains '.' then extFrom rest else []
where
  /-- Suffix of `cs` from its last `'.'` (assuming one occurs). -/
  extFrom : List Char → List Char
    | [] => []
    | c :: rest =>
      if c = '.' then (if rest.contains '.' then extFrom rest else '.' :: rest)
      else extFrom rest

/-- `os.path.splitext(name)[1].lower()` for a file name. -/
def fileExtLower (name : String) : String :=
  String.mk ((fileExt name.toList).map Char.toLower)

/-- Extension normalization of `discover_code_files` (line 84):
`f'.{ext}' if not ext.startswith('.') else ext`. -/
def normalizeExt (e : String) : String :=
  if e.toList.head? = some '.' then e else "." ++ e

/-- The walk over one entry of the tree: an excluded directory name prunes
its whole subtree (the `dirs[:]` filter), a file is kept when its lower-cased
extension is among the normalized extensions; returned paths are relative,
as lists of path components. -/
def walkOne (validExtensions excludeDirs : List String) : FSTree → List (List String)
  | .file n => if fileExtLower n ∈ validExtensions then [[n]] else []
  | .dir d entries =>
    if d ∈ excludeDirs then []
    else (entries.attach.map fun e => (walkOne validExtensions excludeDirs e.1).map (d :: ·)).flatten
termination_by t => sizeOf t
decreasing_by
  simp_wf
  have h := List.sizeOf_lt_of_mem e.2
  omega

/-- `discover_code_files(repo_path, extensions, exclude_dirs)` on a root
directory whose entries are `rootEntries`, returning repository-relative
paths (the walk order of `os.walk` is not modelled; membership is). -/
def discoverCodeFiles (extensions excludeDirs : List String)
    (rootEntries : List FSTree) : List (List String) :=
  let validExtensions := extensions.map normalizeExt
  (rootEntries.map (walkOne validExtensions excludeDirs)).flatten

/-! ## Theorems settling the claims -/

/-- A 120-line plain-text file: the concrete input of the C4 scenario. -/
def plain120 : String := String.intercalate "\n" (List.replicate 120 "line")

/-- The length of the maximal run of leading space characters. -/
def spacePrefixLen (l : List Char) : Nat := (l.takeWhile fun c => c = ' ').length

/-- Spec-side phrasing of the Python block terminator: a non-blank line with
exactly `k` leading space characters. -/
def exactIndent (k : Nat) (l : List Char) : Bool :=
  nonBlank l && decide (spacePrefixLen l = k)

/-- The absolute index (counting from `j`) of the first line of `rest`
satisfying `p`. -/
def firstIdxFrom (p : List Char → Bool) : List (List Char) → Nat → Option Nat
  | [], _ => none
  | l :: t, j => if p l then some j else firstIdxFrom p t (j + 1)

/-- Sum of the per-line brace deltas (spec-side). -/
def deltaSum (ls : List (List Char)) : Int :=
  (ls.map braceDelta).sum

/-- Witness chunk for `chunk_content_nonblank`: the single chunk extracted
from `"def f():\n    return 1"`. -/
def sampleNonblankChunk : RawChunk :=
  { name := "f", type := "def", content := "def f():\n    return 1".toList,
    start_line := 1, end_line := 2, line_range := "1-2" }

/-- The block end the claim prescribes for an opener at line `i` with
indentation `k`: the line immediately before the first subsequent non-blank
line whose indentation is at most `k` (1-indexed, so the value is that
line's 0-indexed position), or the last line when there is none. -/
def claimDedentEnd (lines : List (List Char)) (i k : Nat) : Nat :=
  match firstIdxFrom (fun l => nonBlank l && decide ((l.takeWhile isPySpace).length ≤ k))
      (lines.drop (i + 1)) (i + 1) with
  | some j => j
  | none => lines.length

/-- Lowercase hexadecimal digit test. -/
def isLowerHexDigit (c : Char) : Bool :=
  c.isDigit || ('a' ≤ c && c ≤ 'f')

/-- A default chunk record (used only to read off a computed head). -/
def dummyChunk : Chunk :=
  { code_chunk := [], filepath := "", language := "", function_name := "", repo := "",
    last_modified := "", chunk_id := "", author := "", line_range := "" }

/-- Filesystem-only git metadata used in concrete witnesses. -/
def gmFs : GitMeta :=
  { author := none, last_modified := "t0", repo := "rp", commit_hash := none }

/-- The chunk extracted from a one-function file, first body. -/
def sampleChunkA : Chunk :=
  (processFile "def f():\n    return 1" "a.py" ".py" "repo" gmFs false).headD dummyChunk

/-- The chunk extracted from the same-named function with a different body. -/
def sampleChunkB : Chunk :=
  (processFile "def f():\n    return 2" "a.py" ".py" "repo" gmFs false).headD dummyChunk

/-- Spec-side: the entry list contains a file at relative path `p`
(directories along the way, file name last). -/
def hasFile : List FSTree → List String → Bool
  | es, [n] => es.any fun t =>
      match t with
      | .file m => m = n
      | .dir _ _ => false
  | es, d :: p => es.any fun t =>
      match t with
      | .dir m cs => m = d && hasFile cs p
      | .file _ => false
  | _, [] => false

/-! ## Theorems -/

/-- With a positive record count and batch size there is at least one batch. -/
theorem totalBatches_pos (n b : Nat) (hn : 0 < n) (hb : 0 < b) :
    0 < totalBatches n b := by
  unfold totalBatches
  exact Nat.div_pos (by omega) hb

/-- C1: for every non-empty record list and positive (effective) batch size,
`insert_data` reports success iff every batch succeeded, and the empty input
also reports success; it reports failure iff zero batches succeeded; when
some but not all batches succeeded it reports the mixed outcome carrying the
successful and total batch counts, and with `failed = attempted - succeeded`
the counts satisfy `succeeded + failed = attempted`. -/
theorem insertData_three_way (n b : Nat) (ok : Nat → Nat → Bool)
    (hn : 0 < n) (hb : 0 < b) :
    (insertData n b ok = WriteOutcome.success ↔
        ∀ k < totalBatches n b, batchSucceeds ok k = true) ∧
    (insertData 0 b ok = WriteOutcome.success) ∧
    (insertData n b ok = WriteOutcome.failure ↔
        ∀ k < totalBatches n b, batchSucceeds ok k = false) ∧
    ((∃ k < totalBatches n b, batchSucceeds ok k = true) →
     (∃ k < totalBatches n b, batchSucceeds ok k = false) →
        insertData n b ok =
          WriteOutcome.mixed (successfulBatches n b ok) (totalBatches n b) ∧
        successfulBatches n b ok +
          (totalBatches n b - successfulBatches n b ok) = totalBatches n b) := by
  have ht := totalBatches_pos n b hn hb
  have hle : successfulBatches n b ok ≤ totalBatches n b := by
    have := List.countP_le_length (l := List.range (totalBatches n b)) (batchSucceeds ok)
    simpa [successfulBatches, List.length_range] using this
  have hall : successfulBatches n b ok = totalBatches n b ↔
      ∀ k < totalBatches n b, batchSucceeds ok k = true := by
    have h1 := List.countP_eq_length (l := List.range (totalBatches n b)) (p := batchSucceeds ok)
    rw [List.length_range] at h1
    unfold successfulBatches
    rw [h1]
    simp [List.mem_range]
  have hzero : successfulBatches n b ok = 0 ↔
      ∀ k < totalBatches n b, batchSucceeds ok k = false := by
    unfold successfulBatches
    rw [List.countP_eq_zero]
    simp [List.mem_range]
  refine ⟨?_, by simp [insertData], ?_, ?_⟩
  · unfold insertData
    rw [if_neg (by omega)]
    constructor
    · intro h
      by_cases hs : successfulBatches n b ok = totalBatches n b
      · exact hall.mp hs
      · exfalso
        simp only [if_neg hs] at h
        split at h <;> simp_all
    · intro h
      simp [hall.mpr h]
  · unfold insertData
    rw [if_neg (by omega)]
    constructor
    · intro h
      by_cases hs : successfulBatches n b ok = totalBatches n b
      · simp [hs] at h
      · simp only [if_neg hs] at h
        by_cases hp : 0 < successfulBatches n b ok
        · simp [hp] at h
        · exact hzero.mp (by omega)
    · intro h
      have h0 : successfulBatches n b ok = 0 := hzero.mpr h
      rw [if_neg (by rw [h0]; omega), if_neg (by omega)]
  · intro hsome hnone
    have hpos : 0 < successfulBatches n b ok := by
      unfold successfulBatches
      refine List.countP_pos_iff.mpr ?_
      obtain ⟨k, hk, hks⟩ := hsome
      exact ⟨k, List.mem_range.mpr hk, hks⟩
    have hlt : successfulBatches n b ok < totalBatches n b := by
      rcases Nat.lt_or_ge (successfulBatches n b ok) (totalBatches n b) with h | h
      · exact h
      · exfalso
        obtain ⟨k, hk, hks⟩ := hnone
        have := hall.mp (by omega) k hk
        simp [this] at hks
    constructor
    · unfold insertData
      rw [if_neg (by omega), if_neg (by omega), if_pos hpos]
    · omega

/-- Witness for `insertData_three_way`: 60 records in batches of 25 with
batch index 1 always failing give the mixed outcome `2 of 3 batches`. -/
theorem insertData_three_way_witness :
    insertData 60 25 (fun b _ => b != 1) =
      WriteOutcome.mixed (successfulBatches 60 25 (fun b _ => b != 1))
        (totalBatches 60 25) ∧
    insertData 60 25 (fun b _ => b != 1) = WriteOutcome.mixed 2 3 :=
  ⟨((insertData_three_way 60 25 (fun b _ => b != 1) (by decide) (by decide)).2.2.2
      ⟨0, by decide, by decide⟩ ⟨1, by decide, by decide⟩).1,
   by decide⟩

/-- C3, counterexample: extracting the given two-function Python source
yields chunks named `hello` and `world`, but the `hello` chunk spans
3 lines (its block runs through the blank separator line), not 2. -/
theorem hello_world_spans_cex :
    ((extractFunctionsFallback
        "def hello():\n    return 1\n\ndef world():\n    return 2" "python").map
      fun c => (c.name, c.end_line + 1 - c.start_line)) = [("hello", 3), ("world", 2)] ∧
    (3 : Nat) ≠ 2 := by
  constructor
  · rfl
  · decide

/-- C3, amended: extraction yields exactly the chunks `hello` on lines 1-3
(a 3-line span: the trailing blank line is inside the block) and `world` on
lines 4-5 (a 2-line span). -/
theorem hello_world_spans :
    ((extractFunctionsFallback
        "def hello():\n    return 1\n\ndef world():\n    return 2" "python").map
      fun c => (c.name, c.start_line, c.end_line)) = [("hello", 1, 3), ("world", 4, 5)] := by
  rfl

set_option maxRecDepth 8000 in
/-- C4, counterexample: on the 120-line plain-text file the fallback emits
the three expected windows, but their kind tag is `"code_chunk"`, not
`"code_block"`. -/
theorem fallback_kind_cex :
    ((extractFunctionsFallback plain120 "text").map
        fun c => (c.name, c.type, c.start_line, c.end_line)) =
      [("chunk_1", "code_chunk", 1, 50), ("chunk_2", "code_chunk", 51, 100),
       ("chunk_3", "code_chunk", 101, 120)] ∧
    "code_chunk" ≠ "code_block" := by
  constructor
  · rfl
  · decide

/-- `split('\n')` always yields at least one piece. -/
theorem splitLines_ne_nil (cs : List Char) : splitLines cs ≠ [] := by
  match cs with
  | [] => simp [splitLines]
  | c :: rest =>
    unfold splitLines
    split
    · simp
    · split <;> simp

/-- A non-blank member line makes the joined text non-blank. -/
theorem nonBlank_joinLines {l : List Char} {ls : List (List Char)}
    (hmem : l ∈ ls) (hnb : nonBlank l = true) : nonBlank (joinLines ls) = true := by
  induction ls with
  | nil => cases hmem
  | cons x t ih =>
    match t with
    | [] =>
      have : l = x := by simpa using hmem
      simpa [joinLines, this.symm] using hnb
    | y :: t' =>
      show nonBlank (x ++ '\n' :: joinLines (y :: t')) = true
      rcases List.mem_cons.mp hmem with h | h
      · subst h
        unfold nonBlank at hnb ⊢
        rw [List.any_append]
        simp [hnb]
      · have := ih h
        unfold nonBlank at this ⊢
        rw [List.any_append]
        simp only [List.any_cons]
        simp [this]

/-- A non-blank text has a non-blank line. -/
theorem exists_nonBlank_line {cs : List Char} (h : nonBlank cs = true) :
    ∃ l ∈ splitLines cs, nonBlank l = true := by
  induction cs with
  | nil => simp [nonBlank] at h
  | cons c rest ih =>
    have hc : (!(isPySpace c)) = true ∨ nonBlank rest = true := by
      unfold nonBlank at h
      rw [List.any_cons] at h
      rcases Bool.or_eq_true_iff.mp h with h | h
      · exact Or.inl h
      · exact Or.inr h
    by_cases hnl : c = '\n'
    · subst hnl
      have hrest : nonBlank rest = true := by
        rcases hc with h1 | h1
        · simp [isPySpace] at h1
        · exact h1
      obtain ⟨l, hl, hlb⟩ := ih hrest
      exact ⟨l, by simp [splitLines, hl], hlb⟩
    · obtain ⟨l₀, ls₀, hsp⟩ : ∃ l₀ ls₀, splitLines rest = l₀ :: ls₀ := by
        match hsl : splitLines rest with
        | [] => exact absurd hsl (splitLines_ne_nil rest)
        | l₀ :: ls₀ => exact ⟨l₀, ls₀, rfl⟩
      have hcons : splitLines (c :: rest) = (c :: l₀) :: ls₀ := by
        unfold splitLines
        rw [if_neg hnl, hsp]
      rcases hc with h1 | h1
      · refine ⟨c :: l₀, by simp [hcons], ?_⟩
        unfold nonBlank
        simp [h1]
      · obtain ⟨l, hl, hlb⟩ := ih h1
        rw [hsp] at hl
        rcases List.mem_cons.mp hl with h2 | h2
        · subst h2
          refine ⟨c :: l, by simp [hcons], ?_⟩
          unfold nonBlank at hlb ⊢
          simp only [List.any_cons]
          simp [hlb]
        · exact ⟨l, by simp [hcons, h2], hlb⟩

/-- A list is non-blank exactly when stripping whitespace leaves something. -/
theorem pyStrip_ne_nil_iff (l : List Char) : pyStrip l ≠ [] ↔ nonBlank l = true := by
  unfold pyStrip nonBlank
  constructor
  · intro h
    by_contra hb
    have hall : ∀ a ∈ l, isPySpace a = true := by
      intro a ha
      by_contra hsp
      exact hb (List.any_of_mem ha (by simpa using hsp))
    have h1 : l.dropWhile isPySpace = [] := List.dropWhile_eq_nil_iff.mpr hall
    simp [h1] at h
  · intro h hnil
    obtain ⟨a, ha, hsp⟩ := List.any_eq_true.mp h
    have h1 : (l.dropWhile isPySpace).reverse.dropWhile isPySpace = [] := by
      simpa using hnil
    have h2 : ∀ b ∈ (l.dropWhile isPySpace).reverse, isPySpace b = true :=
      List.dropWhile_eq_nil_iff.mp h1
    have h3 : ∀ b ∈ l.dropWhile isPySpace, isPySpace b = true := by
      intro b hb
      exact h2 b (List.mem_reverse.mpr hb)
    have h4 : ∀ b ∈ l, isPySpace b = true := by
      intro b hb
      rw [← List.takeWhile_append_dropWhile (p := isPySpace) (l := l)] at hb
      rcases List.mem_append.mp hb with h5 | h5
      · exact List.mem_takeWhile_imp h5
      · exact h3 b h5
    simp [h4 a ha] at hsp

/-- `line.startswith(' ' * k)` says exactly that at least `k` leading
characters are spaces. -/
theorem startsWithSpaces_iff (k : Nat) (l : List Char) :
    startsWithSpaces k l = true ↔ k ≤ spacePrefixLen l := by
  induction l generalizing k with
  | nil =>
    match k with
    | 0 => simp [startsWithSpaces, spacePrefixLen]
    | k + 1 =>
      simp only [startsWithSpaces, List.take_nil, List.replicate_succ, spacePrefixLen,
        List.takeWhile_nil, List.length_nil]
      constructor
      · intro h
        exact absurd h (by simp)
      · omega
  | cons c t ih =>
    match k with
    | 0 => simp [startsWithSpaces]
    | k + 1 =>
      by_cases hc : c = ' '
      · subst hc
        have h1 : startsWithSpaces (k + 1) (' ' :: t) = startsWithSpaces k t := by
          simp [startsWithSpaces, List.replicate_succ]
        have h2 : spacePrefixLen (' ' :: t) = spacePrefixLen t + 1 := by
          simp [spacePrefixLen, List.takeWhile_cons]
        rw [h1, h2, ih]
        omega
      · have h1 : startsWithSpaces (k + 1) (c :: t) = false := by
          simp [startsWithSpaces, List.replicate_succ, hc]
        have h2 : spacePrefixLen (c :: t) = 0 := by
          simp [spacePrefixLen, List.takeWhile_cons, hc]
        rw [h1, h2]
        constructor
        · intro h
          exact absurd h (by simp)
        · omega

/-- `startswith(' ' * k)` as a decision on the space-prefix length. -/
theorem startsWithSpaces_eq (k : Nat) (l : List Char) :
    startsWithSpaces k l = decide (k ≤ spacePrefixLen l) := by
  by_cases h : k ≤ spacePrefixLen l
  · rw [(startsWithSpaces_iff k l).mpr h, decide_eq_true h]
  · have hne : startsWithSpaces k l = false := by
      cases hx : startsWithSpaces k l
      · rfl
      · exact absurd ((startsWithSpaces_iff k l).mp hx) h
    rw [hne, decide_eq_false h]

/-- The block-end scan of the Python branch stops exactly at the first
subsequent non-blank line with exactly `k` leading spaces (returning the
index just before it), and falls back to `deflt` when there is none. -/
theorem pyFindEnd_eq_firstIdx (k deflt : Nat) (rest : List (List Char)) (j : Nat) :
    pyFindEnd k deflt rest j =
      match firstIdxFrom (exactIndent k) rest j with
      | some m => m - 1
      | none => deflt := by
  induction rest generalizing j with
  | nil => rfl
  | cons l t ih =>
    show (if nonBlank l && !(startsWithSpaces (k + 1) l) then
            if startsWithSpaces k l && nonBlank l then j - 1
            else pyFindEnd k deflt t (j + 1)
          else pyFindEnd k deflt t (j + 1)) =
      match (if exactIndent k l then some j else firstIdxFrom (exactIndent k) t (j + 1)) with
      | some m => m - 1
      | none => deflt
    by_cases hE : exactIndent k l = true
    · obtain ⟨h1, h2⟩ : nonBlank l = true ∧ spacePrefixLen l = k := by
        simpa [exactIndent] using hE
      have h3 : startsWithSpaces k l = true := by
        rw [startsWithSpaces_eq]
        simp [h2]
      have h4 : startsWithSpaces (k + 1) l = false := by
        rw [startsWithSpaces_eq]
        simp
        omega
      rw [if_pos hE]
      simp [h1, h3, h4]
    · rw [if_neg hE]
      by_cases ho : (nonBlank l && !(startsWithSpaces (k + 1) l)) = true
      · by_cases hi : (startsWithSpaces k l && nonBlank l) = true
        · exfalso
          apply hE
          obtain ⟨h1, h2⟩ : nonBlank l = true ∧ startsWithSpaces (k + 1) l = false := by
            simpa using ho
          have h3 : startsWithSpaces k l = true := by
            simpa [h1] using hi
          have h4 := (startsWithSpaces_iff k l).mp h3
          have h5 : ¬ (k + 1 ≤ spacePrefixLen l) := by
            intro hx
            rw [(startsWithSpaces_iff (k + 1) l).mpr hx] at h2
            cases h2
          unfold exactIndent
          simp [h1]
          omega
        · rw [if_pos ho, if_neg hi]
          exact ih (j + 1)
      · rw [if_neg ho]
        exact ih (j + 1)

/-- Any result of the Python block-end scan is either the default or lies in
the scanned range (as `result = absolute index of the hit - 1`). -/
theorem pyFindEnd_bounds (k deflt : Nat) (rest : List (List Char)) (j : Nat) :
    pyFindEnd k deflt rest j = deflt ∨
      ∃ m < rest.length, pyFindEnd k deflt rest j = j + m - 1 := by
  rw [pyFindEnd_eq_firstIdx]
  have key : ∀ (t : List (List Char)) (q : Nat), firstIdxFrom (exactIndent k) t q = none ∨
      ∃ m < t.length, firstIdxFrom (exactIndent k) t q = some (q + m) := by
    intro t
    induction t with
    | nil => intro q; left; rfl
    | cons l t' ih =>
      intro q
      by_cases hp : exactIndent k l = true
      · right
        exact ⟨0, by simp, by simp [firstIdxFrom, hp]⟩
      · rcases ih (q + 1) with h | ⟨m, hm, h⟩
        · left
          simp [firstIdxFrom, hp, h]
        · right
          refine ⟨m + 1, by simp; omega, ?_⟩
          rw [show firstIdxFrom (exactIndent k) (l :: t') q =
            firstIdxFrom (exactIndent k) t' (q + 1) from by simp [firstIdxFrom, hp], h]
          congr 1
          omega
  rcases key rest j with h | ⟨m, hm, h⟩
  · left
    rw [h]
  · right
    exact ⟨m, hm, by rw [h]⟩

theorem deltaSum_cons (l : List Char) (t : List (List Char)) :
    deltaSum (l :: t) = braceDelta l + deltaSum t := by
  simp [deltaSum]

/-- Unfolding of the javascript block-end scan on a cons cell. -/
theorem jsFindEnd_cons (deflt : Nat) (l : List Char) (t : List (List Char)) (j : Nat) (bal : Int) :
    jsFindEnd deflt (l :: t) j bal =
      if bal + braceDelta l = 0 then j else jsFindEnd deflt t (j + 1) (bal + braceDelta l) := rfl

/-- If the running brace balance never returns to zero, the javascript
block-end scan keeps the default (the opening line's index). -/
theorem jsFindEnd_of_no_zero (deflt : Nat) (rest : List (List Char)) (j : Nat) (bal : Int)
    (h : ∀ m < rest.length, bal + deltaSum (rest.take (m + 1)) ≠ 0) :
    jsFindEnd deflt rest j bal = deflt := by
  induction rest generalizing j bal with
  | nil => rfl
  | cons l t ih =>
    have h0 : bal + braceDelta l ≠ 0 := by
      have := h 0 (by simp)
      simpa [deltaSum] using this
    rw [jsFindEnd_cons, if_neg h0]
    apply ih
    intro m hm
    have hstep := h (m + 1) (by simp; omega)
    rw [List.take_succ_cons, deltaSum_cons] at hstep
    intro hx
    apply hstep
    linarith

/-- Any result of the javascript block-end scan is either the default or an
index inside the scanned range. -/
theorem jsFindEnd_bounds (deflt : Nat) (rest : List (List Char)) (j : Nat) (bal : Int) :
    jsFindEnd deflt rest j bal = deflt ∨
      ∃ m < rest.length, jsFindEnd deflt rest j bal = j + m := by
  induction rest generalizing j bal with
  | nil => left; rfl
  | cons l t ih =>
    rw [jsFindEnd_cons]
    by_cases h0 : bal + braceDelta l = 0
    · right
      exact ⟨0, by simp, by rw [if_pos h0]; omega⟩
    · rw [if_neg h0]
      rcases ih (j + 1) (bal + braceDelta l) with h | ⟨m, hm, h⟩
      · left
        exact h
      · right
        refine ⟨m + 1, by simp; omega, ?_⟩
        rw [h]
        omega

/-- Membership characterization of the Python branch's output. -/
theorem mem_pyExtract {lines : List (List Char)} {c : RawChunk} :
    c ∈ pyExtract lines ↔
      ∃ i, ∃ h : i < lines.length, ∃ k kw name,
        pyDefMatch lines[i] = some (k, kw, name) ∧ c = pyChunkAt lines i k kw name := by
  unfold pyExtract
  rw [List.mem_filterMap]
  constructor
  · rintro ⟨⟨i, l⟩, hmem, heq⟩
    have hget : lines[i]? = some l := List.mem_enum_iff_getElem?.mp hmem
    obtain ⟨h, hl⟩ := List.getElem?_eq_some.mp hget
    match hpm : pyDefMatch l with
    | none => rw [hpm] at heq; cases heq
    | some (k, kw, name) =>
      rw [hpm] at heq
      refine ⟨i, h, k, kw, name, ?_, ?_⟩
      · rw [hl]
        exact hpm
      · cases heq
        rfl
  · rintro ⟨i, h, k, kw, name, hpm, hc⟩
    refine ⟨(i, lines[i]), ?_, ?_⟩
    · exact List.mem_enum_iff_getElem?.mpr (List.getElem?_eq_some.mpr ⟨h, rfl⟩)
    · show (match pyDefMatch lines[i] with
        | none => none
        | some (k, kw, name) => some (pyChunkAt lines i k kw name)) = some c
      rw [hpm, hc]

/-- Membership characterization of the javascript branch's output. -/
theorem mem_jsExtract {lines : List (List Char)} {c : RawChunk} :
    c ∈ jsExtract lines ↔
      ∃ i, ∃ h : i < lines.length, ∃ k name,
        jsMatch lines[i] = some (k, name) ∧ c = jsChunkAt lines i name := by
  unfold jsExtract
  rw [List.mem_filterMap]
  constructor
  · rintro ⟨⟨i, l⟩, hmem, heq⟩
    have hget : lines[i]? = some l := List.mem_enum_iff_getElem?.mp hmem
    obtain ⟨h, hl⟩ := List.getElem?_eq_some.mp hget
    match hpm : jsMatch l with
    | none => rw [hpm] at heq; cases heq
    | some (k, name) =>
      rw [hpm] at heq
      refine ⟨i, h, k, name, ?_, ?_⟩
      · rw [hl]
        exact hpm
      · cases heq
        rfl
  · rintro ⟨i, h, k, name, hpm, hc⟩
    refine ⟨(i, lines[i]), ?_, ?_⟩
    · exact List.mem_enum_iff_getElem?.mpr (List.getElem?_eq_some.mpr ⟨h, rfl⟩)
    · show (match jsMatch lines[i] with
        | none => none
        | some (k, name) => some (jsChunkAt lines i name)) = some c
      rw [hpm, hc]

/-- Membership characterization of the fallback slicing's output. -/
theorem mem_fallbackChunks {lines : List (List Char)} {c : RawChunk} :
    c ∈ fallbackChunks lines ↔
      ∃ w, w < numWindows lines ∧ nonBlank (windowChunkAt lines w).content = true ∧
        c = windowChunkAt lines w := by
  unfold fallbackChunks
  rw [List.mem_filterMap]
  constructor
  · rintro ⟨w, hw, heq⟩
    rw [List.mem_range] at hw
    by_cases hnb : nonBlank (windowChunkAt lines w).content = true
    · rw [if_pos hnb] at heq
      cases heq
      exact ⟨w, hw, hnb, rfl⟩
    · rw [if_neg hnb] at heq
      cases heq
  · rintro ⟨w, hw, hnb, hc⟩
    exact ⟨w, List.mem_range.mpr hw, by rw [if_pos hnb, hc]⟩

/-- A line matched by the def/class pattern is non-blank. -/
theorem pyDefMatch_nonBlank {l : List Char} {x : Nat × String × String}
    (h : pyDefMatch l = some x) : nonBlank l = true := by
  by_contra hnb
  rw [Bool.not_eq_true] at hnb
  have hall : ∀ a ∈ l, isPySpace a = true := by
    intro a ha
    by_contra hs
    have ht : nonBlank l = true := List.any_of_mem ha (by simpa using hs)
    rw [ht] at hnb
    cases hnb
  have hd : l.dropWhile isPySpace = [] := List.dropWhile_eq_nil_iff.mpr hall
  rw [pyDefMatch] at h
  simp [hd] at h

/-- A line matched by one of the four javascript patterns is non-blank. -/
theorem jsMatch_nonBlank {l : List Char} {x : Nat × String}
    (h : jsMatch l = some x) : nonBlank l = true := by
  by_contra hnb
  rw [Bool.not_eq_true] at hnb
  have hall : ∀ a ∈ l, isPySpace a = true := by
    intro a ha
    by_contra hs
    have ht : nonBlank l = true := List.any_of_mem ha (by simpa using hs)
    rw [ht] at hnb
    cases hnb
  have hd : l.dropWhile isPySpace = [] := List.dropWhile_eq_nil_iff.mpr hall
  rw [jsMatch] at h
  simp [jsMatch1, jsMatch2, jsMatch3, jsMatch4, chompKw, hd] at h

/-- Every chunk of `extract_functions_fallback` arises from a Python match,
a javascript match, or a fallback window. -/
theorem extract_shape {content language : String} {c : RawChunk}
    (hc : c ∈ extractFunctionsFallback content language) :
    (∃ i, ∃ h : i < (splitLines content.toList).length, ∃ k kw name,
        pyDefMatch (splitLines content.toList)[i] = some (k, kw, name) ∧
        c = pyChunkAt (splitLines content.toList) i k kw name) ∨
    (∃ i, ∃ h : i < (splitLines content.toList).length, ∃ k name,
        jsMatch (splitLines content.toList)[i] = some (k, name) ∧
        c = jsChunkAt (splitLines content.toList) i name) ∨
    (∃ w, w < numWindows (splitLines content.toList) ∧
        nonBlank (windowChunkAt (splitLines content.toList) w).content = true ∧
        c = windowChunkAt (splitLines content.toList) w) := by
  unfold extractFunctionsFallback at hc
  by_cases hempty : (patternChunks (splitLines content.toList) language).isEmpty = true
  · rw [if_pos hempty] at hc
    right; right
    exact mem_fallbackChunks.mp hc
  · rw [if_neg hempty] at hc
    unfold patternChunks at hc
    by_cases h1 : language = "python"
    · rw [if_pos h1] at hc
      left
      exact mem_pyExtract.mp hc
    · rw [if_neg h1] at hc
      by_cases h2 : (language = "javascript" || language = "typescript") = true
      · rw [if_pos h2] at hc
        right; left
        exact mem_jsExtract.mp hc
      · rw [if_neg h2] at hc
        cases hc

/-- The Python block end lies between the opening line and the last line. -/
theorem pyChunk_end_bounds (lines : List (List Char)) (i k : Nat) (h : i < lines.length) :
    i ≤ pyFindEnd k (lines.length - 1) (lines.drop (i + 1)) (i + 1) ∧
      pyFindEnd k (lines.length - 1) (lines.drop (i + 1)) (i + 1) ≤ lines.length - 1 := by
  rcases pyFindEnd_bounds k (lines.length - 1) (lines.drop (i + 1)) (i + 1) with hd | ⟨m, hm, he⟩
  · rw [hd]
    omega
  · rw [he]
    rw [List.length_drop] at hm
    omega

/-- The javascript block end lies between the opening line and the last line. -/
theorem jsChunk_end_bounds (lines : List (List Char)) (i : Nat) (bal : Int)
    (h : i < lines.length) :
    i ≤ jsFindEnd i (lines.drop (i + 1)) (i + 1) bal ∧
      jsFindEnd i (lines.drop (i + 1)) (i + 1) bal ≤ lines.length - 1 := by
  rcases jsFindEnd_bounds i (lines.drop (i + 1)) (i + 1) bal with hd | ⟨m, hm, he⟩
  · rw [hd]
    omega
  · rw [he]
    rw [List.length_drop] at hm
    omega

/-- The sliced block always starts with its opening line. -/
theorem take_drop_cons {lines : List (List Char)} {i e : Nat} (h : i < lines.length)
    (he : i ≤ e) :
    (lines.drop i).take (e + 1 - i) = lines[i] :: ((lines.drop (i + 1)).take (e - i)) := by
  rw [List.drop_eq_getElem_cons h, show e + 1 - i = (e - i) + 1 from by omega,
    List.take_succ_cons]

/-- A window index below the window count starts inside the file. -/
theorem window_lt {len w : Nat} (hw : w < (len + 49) / 50) : 50 * w < len := by
  have h1 : w + 1 ≤ (len + 49) / 50 := hw
  have h2 : (w + 1) * 50 ≤ len + 49 := (Nat.le_div_iff_mul_le (by norm_num)).mp h1
  omega

/-- C6: every chunk emitted by extraction — pattern-based for any language
family, or fallback windowing — has content that is non-empty after
trimming whitespace. -/
theorem chunk_content_nonblank (content language : String) (c : RawChunk)
    (hc : c ∈ extractFunctionsFallback content language) :
    pyStrip c.content ≠ [] := by
  rw [pyStrip_ne_nil_iff]
  rcases extract_shape hc with ⟨i, h, k, kw, name, hpm, hceq⟩
    | ⟨i, h, k, name, hpm, hceq⟩ | ⟨w, hw, hnb, hceq⟩
  · subst hceq
    have hnbl := pyDefMatch_nonBlank hpm
    have hb := pyChunk_end_bounds (splitLines content.toList) i k h
    show nonBlank (joinLines (((splitLines content.toList).drop i).take
      (pyFindEnd k ((splitLines content.toList).length - 1)
        ((splitLines content.toList).drop (i + 1)) (i + 1) + 1 - i))) = true
    rw [take_drop_cons h hb.1]
    exact nonBlank_joinLines (List.mem_cons_self _ _) hnbl
  · subst hceq
    have hnbl := jsMatch_nonBlank hpm
    have hb := jsChunk_end_bounds (splitLines content.toList) i
      (braceDelta (((splitLines content.toList).drop i).headD [])) h
    show nonBlank (joinLines (((splitLines content.toList).drop i).take
      (jsFindEnd i ((splitLines content.toList).drop (i + 1)) (i + 1)
        (braceDelta (((splitLines content.toList).drop i).headD [])) + 1 - i))) = true
    rw [take_drop_cons h hb.1]
    exact nonBlank_joinLines (List.mem_cons_self _ _) hnbl
  · subst hceq
    exact hnb

/-- Witness for `chunk_content_nonblank` at a concrete input. -/
theorem chunk_content_nonblank_witness : pyStrip sampleNonblankChunk.content ≠ [] :=
  chunk_content_nonblank "def f():\n    return 1" "python" sampleNonblankChunk (by decide)

/-- C7: every chunk produced by any extraction path has `1 ≤ start_line`,
`start_line ≤ end_line`, and `end_line` at most the file's line count. -/
theorem chunk_line_bounds (content language : String) (c : RawChunk)
    (hc : c ∈ extractFunctionsFallback content language) :
    1 ≤ c.start_line ∧ c.start_line ≤ c.end_line ∧
      c.end_line ≤ (splitLines content.toList).length := by
  rcases extract_shape hc with ⟨i, h, k, kw, name, hpm, hceq⟩
    | ⟨i, h, k, name, hpm, hceq⟩ | ⟨w, hw, hnb, hceq⟩
  · subst hceq
    have hb := pyChunk_end_bounds (splitLines content.toList) i k h
    show 1 ≤ i + 1 ∧ i + 1 ≤ pyFindEnd k ((splitLines content.toList).length - 1)
      ((splitLines content.toList).drop (i + 1)) (i + 1) + 1 ∧ _ + 1 ≤ _
    omega
  · subst hceq
    have hb := jsChunk_end_bounds (splitLines content.toList) i
      (braceDelta (((splitLines content.toList).drop i).headD [])) h
    show 1 ≤ i + 1 ∧ i + 1 ≤ jsFindEnd i ((splitLines content.toList).drop (i + 1)) (i + 1)
      (braceDelta (((splitLines content.toList).drop i).headD [])) + 1 ∧ _ + 1 ≤ _
    omega
  · subst hceq
    have hlt : 50 * w < (splitLines content.toList).length := window_lt hw
    show 1 ≤ 50 * w + 1 ∧ 50 * w + 1 ≤ min (50 * w + 50) (splitLines content.toList).length ∧
      min (50 * w + 50) (splitLines content.toList).length ≤ (splitLines content.toList).length
    omega

/-- Witness for `chunk_line_bounds` at a concrete input. -/
theorem chunk_line_bounds_witness :
    1 ≤ sampleNonblankChunk.start_line ∧
      sampleNonblankChunk.start_line ≤ sampleNonblankChunk.end_line ∧
      sampleNonblankChunk.end_line ≤ (splitLines "def f():\n    return 1".toList).length :=
  chunk_line_bounds "def f():\n    return 1" "python" sampleNonblankChunk (by decide)

/-- The first hit of `firstIdxFrom` is at or after the start index. -/
theorem firstIdxFrom_ge {p : List Char → Bool} {t : List (List Char)} {q j : Nat}
    (h : firstIdxFrom p t q = some j) : q ≤ j := by
  induction t generalizing q with
  | nil => cases h
  | cons l t' ih =>
    unfold firstIdxFrom at h
    by_cases hp : p l = true
    · rw [if_pos hp] at h
      cases h
      omega
    · rw [if_neg hp] at h
      have := ih h
      omega

/-- C2, counterexample: in `"  def f():\n    pass\nx"` the block opened at
line 1 (indentation 2) should, per the claim, end just before the dedented
line `x` (end_line 2), but the code emits end_line 3: a dedent to strictly
less than the opening indentation does not stop the scan. -/
theorem py_block_end_cex :
    ((extractFunctionsFallback "  def f():\n    pass\nx" "python").map
        fun c => (c.name, c.start_line, c.end_line)) = [("f", 1, 3)] ∧
    pyDefMatch ((splitLines "  def f():\n    pass\nx".toList).getD 0 []) =
      some (2, "def", "f") ∧
    claimDedentEnd (splitLines "  def f():\n    pass\nx".toList) 0 2 = 2 ∧
    (3 : Nat) ≠ 2 := by
  refine ⟨rfl, rfl, rfl, by decide⟩

/-- C2, amended: a Python block opened at line index `i` with indentation
`k` ends at the line immediately before the first subsequent non-blank line
with exactly `k` leading spaces (lines dedented below `k`, or blank lines,
do not terminate the scan); when no such line exists the block extends to
the last line of the file. -/
theorem py_block_end (lines : List (List Char)) (i : Nat) (h : i < lines.length)
    (k : Nat) (kw name : String) (hm : pyDefMatch lines[i] = some (k, kw, name)) :
    pyChunkAt lines i k kw name ∈ pyExtract lines ∧
    (pyChunkAt lines i k kw name).start_line = i + 1 ∧
    (pyChunkAt lines i k kw name).end_line =
      (match firstIdxFrom (exactIndent k) (lines.drop (i + 1)) (i + 1) with
       | some j => j
       | none => lines.length) := by
  refine ⟨mem_pyExtract.mpr ⟨i, h, k, kw, name, hm, rfl⟩, rfl, ?_⟩
  show pyFindEnd k (lines.length - 1) (lines.drop (i + 1)) (i + 1) + 1 = _
  rw [pyFindEnd_eq_firstIdx]
  cases key : firstIdxFrom (exactIndent k) (lines.drop (i + 1)) (i + 1) with
  | none =>
    show lines.length - 1 + 1 = lines.length
    omega
  | some j =>
    show j - 1 + 1 = j
    have hge := firstIdxFrom_ge key
    omega

/-- Witness for `py_block_end`: the `a` block of `"def a():\n    x\nb = 1"`
ends just before the non-blank zero-indented line `b = 1`. -/
theorem py_block_end_witness :
    (pyChunkAt (splitLines "def a():\n    x\nb = 1".toList) 0 0 "def" "a").end_line = 2 ∧
    pyChunkAt (splitLines "def a():\n    x\nb = 1".toList) 0 0 "def" "a" ∈
      pyExtract (splitLines "def a():\n    x\nb = 1".toList) :=
  ⟨by
    rw [(py_block_end (splitLines "def a():\n    x\nb = 1".toList) 0 (by decide) 0 "def" "a"
      (by decide)).2.2]
    rfl,
   (py_block_end (splitLines "def a():\n    x\nb = 1".toList) 0 (by decide) 0 "def" "a"
      (by decide)).1⟩

/-- The opening line read back from the dropped tail. -/
theorem headD_drop {lines : List (List Char)} {i : Nat} (h : i < lines.length) :
    (lines.drop i).headD [] = lines[i] := by
  rw [List.drop_eq_getElem_cons h]
  rfl

/-- C10: when a javascript/typescript line matches one of the patterns but
the running brace balance starting from that line never returns to zero
before the end of the file, the emitted chunk consists of only the opening
line: its `end_line` equals its `start_line`. -/
theorem js_unclosed_block (lines : List (List Char)) (i : Nat) (h : i < lines.length)
    (k : Nat) (name : String) (hm : jsMatch lines[i] = some (k, name))
    (hnz : ∀ j, j < lines.length → i < j →
      deltaSum ((lines.drop i).take (j + 1 - i)) ≠ 0) :
    jsChunkAt lines i name ∈ jsExtract lines ∧
    (jsChunkAt lines i name).end_line = (jsChunkAt lines i name).start_line ∧
    (jsChunkAt lines i name).content = lines[i] := by
  have hE : jsFindEnd i (lines.drop (i + 1)) (i + 1)
      (braceDelta ((lines.drop i).headD [])) = i := by
    apply jsFindEnd_of_no_zero
    intro m hm'
    rw [List.length_drop] at hm'
    have hj := hnz (i + 1 + m) (by omega) (by omega)
    rw [take_drop_cons h (by omega : i ≤ i + 1 + m)] at hj
    rw [show i + 1 + m - i = m + 1 from by omega] at hj
    rw [deltaSum_cons] at hj
    rw [headD_drop h]
    exact hj
  refine ⟨mem_jsExtract.mpr ⟨i, h, k, name, hm, rfl⟩, ?_, ?_⟩
  · show jsFindEnd i (lines.drop (i + 1)) (i + 1)
      (braceDelta ((lines.drop i).headD [])) + 1 = i + 1
    rw [hE]
  · show joinLines ((lines.drop i).take (jsFindEnd i (lines.drop (i + 1)) (i + 1)
      (braceDelta ((lines.drop i).headD [])) + 1 - i)) = lines[i]
    rw [hE, show i + 1 - i = 1 from by omega, List.drop_eq_getElem_cons h]
    rfl

/-- Witness for `js_unclosed_block`: `"function f() \x7b\nx"` never closes its
brace, so the chunk is just the opening line. -/
theorem js_unclosed_block_witness :
    (jsChunkAt (splitLines "function f() \x7b\nx".toList) 0 "f").end_line =
      (jsChunkAt (splitLines "function f() \x7b\nx".toList) 0 "f").start_line :=
  (js_unclosed_block (splitLines "function f() \x7b\nx".toList) 0 (by decide) 0 "f"
    (by decide) (by decide)).2.1

/-- A line of the file is a member of the window that covers it. -/
theorem mem_window_of_getElem {lines : List (List Char)} {idx : Nat}
    (h : idx < lines.length) :
    lines[idx] ∈ (lines.drop (50 * (idx / 50))).take 50 := by
  have hdm := Nat.div_add_mod idx 50
  have hml := Nat.mod_lt idx (by norm_num : 0 < 50)
  have hsome : ((lines.drop (50 * (idx / 50))).take 50)[idx % 50]? = some lines[idx] := by
    rw [List.getElem?_take, if_pos hml, List.getElem?_drop,
      show 50 * (idx / 50) + idx % 50 = idx from by omega]
    exact List.getElem?_eq_some.mpr ⟨h, rfl⟩
  exact List.getElem?_mem hsome

/-- C4, amended: when pattern-based extraction yields zero chunks, the
extractor slices the file into consecutive 50-line windows; every emitted
chunk is the chunk of some window `w` with non-whitespace content, named
`chunk_<w+1>` of kind `"code_chunk"` (the code's tag for windowed chunks,
not `code_block`), spanning lines `50w+1 .. min(50w+50, total)`; and a
non-empty file yields at least one chunk. -/
theorem fallback_windowing (content language : String)
    (hpat : patternChunks (splitLines content.toList) language = []) :
    extractFunctionsFallback content language =
      fallbackChunks (splitLines content.toList) ∧
    (∀ c ∈ extractFunctionsFallback content language,
      ∃ w, w < numWindows (splitLines content.toList) ∧
        c = windowChunkAt (splitLines content.toList) w ∧
        c.name = "chunk_" ++ toString (w + 1) ∧ c.type = "code_chunk" ∧
        c.start_line = 50 * w + 1 ∧
        c.end_line = min (50 * w + 50) (splitLines content.toList).length ∧
        nonBlank c.content = true) ∧
    (nonBlank content.toList = true → extractFunctionsFallback content language ≠ []) := by
  have heq : extractFunctionsFallback content language =
      fallbackChunks (splitLines content.toList) := by
    show (if (patternChunks (splitLines content.toList) language).isEmpty = true
        then fallbackChunks (splitLines content.toList)
        else patternChunks (splitLines content.toList) language) =
      fallbackChunks (splitLines content.toList)
    rw [hpat]
    rfl
  refine ⟨heq, ?_, ?_⟩
  · intro c hc
    rw [heq] at hc
    obtain ⟨w, hw, hnb, hceq⟩ := mem_fallbackChunks.mp hc
    subst hceq
    exact ⟨w, hw, rfl, rfl, rfl, rfl, rfl, hnb⟩
  · intro hnbc
    rw [heq]
    obtain ⟨l, hl, hlnb⟩ := exists_nonBlank_line hnbc
    obtain ⟨idx, hidx, hget⟩ := List.mem_iff_getElem.mp hl
    have hwin : l ∈ ((splitLines content.toList).drop (50 * (idx / 50))).take 50 := by
      rw [← hget]
      exact mem_window_of_getElem hidx
    have hw : idx / 50 < numWindows (splitLines content.toList) := by
      unfold numWindows
      have h50 : idx / 50 * 50 ≤ idx := Nat.div_mul_le_self idx 50
      have : idx / 50 + 1 ≤ ((splitLines content.toList).length + 49) / 50 :=
        (Nat.le_div_iff_mul_le (by norm_num)).mpr (by omega)
      omega
    have hnbw : nonBlank (windowChunkAt (splitLines content.toList) (idx / 50)).content
        = true := by
      show nonBlank (joinLines
        (((splitLines content.toList).drop (50 * (idx / 50))).take 50)) = true
      exact nonBlank_joinLines hwin hlnb
    exact List.ne_nil_of_mem (mem_fallbackChunks.mpr ⟨idx / 50, hw, hnbw, rfl⟩)

set_option maxRecDepth 8000 in
/-- Witness for `fallback_windowing`: the 120-line plain-text file has no
pattern chunks and yields a non-empty chunk list. -/
theorem fallback_windowing_witness :
    extractFunctionsFallback plain120 "text" = fallbackChunks (splitLines plain120.toList) ∧
    extractFunctionsFallback plain120 "text" ≠ [] :=
  ⟨(fallback_windowing plain120 "text" rfl).1,
   (fallback_windowing plain120 "text" rfl).2.2 (by decide)⟩

/-- Every output of `hexChar` is a lowercase hex digit. -/
theorem hexChar_isHex (n : Nat) : isLowerHexDigit (hexChar n) = true := by
  unfold hexChar
  split <;> decide

/-- The hexdigest has 32 characters. -/
theorem md5Hex_length (msg : List Nat) : (md5Hex msg).length = 32 := rfl

/-- Every character of the hexdigest is a lowercase hex digit. -/
theorem mem_md5Hex_isHex {msg : List Nat} {c : Char} (hc : c ∈ md5Hex msg) :
    isLowerHexDigit c = true := by
  unfold md5Hex at hc
  rw [List.mem_flatMap] at hc
  obtain ⟨b, _, hcb⟩ := hc
  unfold byteHex at hcb
  simp at hcb
  rcases hcb with h | h <;> (subst h; exact hexChar_isHex _)

/-- The chunk identifier always has 12 characters. -/
theorem chunkId_length (r p n : String) : (chunkId r p n).length = 12 := rfl

/-- C5: every chunk's `chunk_id` is the fixed hash of
`(repo_url, relative_path, function name)` alone: chunks from two runs over
possibly different contents but the same repo url, path and name carry the
same id, and the id is a 12-character lowercase-hex string. -/
theorem chunk_id_pure (content content' relPath fileExt repoUrl : String)
    (gm gm' : GitMeta) (egi egi' : Bool) (c c' : Chunk)
    (hc : c ∈ processFile content relPath fileExt repoUrl gm egi)
    (hc' : c' ∈ processFile content' relPath fileExt repoUrl gm' egi')
    (hname : c.function_name = c'.function_name) :
    c.chunk_id = chunkId repoUrl relPath c.function_name ∧
    c.chunk_id = c'.chunk_id ∧
    c.chunk_id.length = 12 ∧
    ∀ ch ∈ c.chunk_id.toList, isLowerHexDigit ch = true := by
  have hfield : ∀ (content₀ : String) (gm₀ : GitMeta) (egi₀ : Bool) (c₀ : Chunk),
      c₀ ∈ processFile content₀ relPath fileExt repoUrl gm₀ egi₀ →
      c₀.chunk_id = chunkId repoUrl relPath c₀.function_name := by
    intro content₀ gm₀ egi₀ c₀ hmem
    unfold processFile at hmem
    by_cases hnb : (!(nonBlank content₀.toList)) = true
    · rw [if_pos hnb] at hmem
      cases hmem
    · rw [if_neg hnb] at hmem
      rw [List.mem_map] at hmem
      obtain ⟨f, _, hf⟩ := hmem
      subst hf
      rfl
  have h1 := hfield content gm egi c hc
  have h2 := hfield content' gm' egi' c' hc'
  refine ⟨h1, ?_, ?_, ?_⟩
  · rw [h1, h2, hname]
  · rw [h1]
    exact chunkId_length repoUrl relPath c.function_name
  · rw [h1]
    intro ch hch
    have hch' : ch ∈ md5Hex (strBytes (repoUrl ++ ":" ++ relPath ++ ":" ++ c.function_name)) :=
      List.mem_of_mem_take (by simpa [chunkId, String.toList] using hch)
    exact mem_md5Hex_isHex hch'

set_option maxRecDepth 100000 in
/-- Witness for `chunk_id_pure`: two runs over different bodies of `f` in
`a.py` produce the same 12-character id. -/
theorem chunk_id_pure_witness :
    sampleChunkA.chunk_id = sampleChunkB.chunk_id ∧ sampleChunkA.chunk_id.length = 12 :=
  ⟨((chunk_id_pure "def f():\n    return 1" "def f():\n    return 2" "a.py" ".py" "repo"
      gmFs gmFs false false sampleChunkA sampleChunkB (by decide) (by decide)
      (by decide)).2.1),
   ((chunk_id_pure "def f():\n    return 1" "def f():\n    return 2" "a.py" ".py" "repo"
      gmFs gmFs false false sampleChunkA sampleChunkB (by decide) (by decide)
      (by decide)).2.2.1)⟩

/-- C8, counterexample: with git extraction enabled and an origin remote
that resolves, `extract_git_metadata` records the origin url in its
metadata dict, but the emitted chunk's `repo` field is the caller-passed
`repo_url`, not that resolved url. -/
theorem chunk_repo_cex :
    ((processFile "x = 1" "a.py" ".py" "https://caller/repo"
        (extractGitMetadata "/tmp/rp" true true none (some "https://origin/url") "t0")
        true).map fun c => c.repo) = ["https://caller/repo"] ∧
    (extractGitMetadata "/tmp/rp" true true none (some "https://origin/url") "t0").repo =
      "https://origin/url" ∧
    "https://caller/repo" ≠ "https://origin/url" := by
  refine ⟨rfl, rfl, by decide⟩

/-- C8, amended: `extract_git_metadata` resolves its `repo` metadata value
to the origin remote url when git extraction is enabled and the remote
resolves, and falls back to the repository root path when the remote is
unavailable or git extraction is disabled; but every emitted chunk's `repo`
field equals the caller-passed `repo_url` — the resolved url is not
propagated into chunks. -/
theorem chunk_repo_field (repoPath mt : String) (egi gitOk : Bool)
    (lc : Option (String × String × String)) (u : String)
    (content relPath fext repoUrl : String) (gm : GitMeta) (c : Chunk)
    (hc : c ∈ processFile content relPath fext repoUrl gm egi) :
    (extractGitMetadata repoPath true true lc (some u) mt).repo = u ∧
    (extractGitMetadata repoPath egi gitOk lc none mt).repo = repoPath ∧
    (extractGitMetadata repoPath false gitOk lc (some u) mt).repo = repoPath ∧
    c.repo = repoUrl := by
  refine ⟨rfl, ?_, rfl, ?_⟩
  · unfold extractGitMetadata
    cases egi <;> cases gitOk <;> rfl
  · unfold processFile at hc
    by_cases hnb : (!(nonBlank content.toList)) = true
    · rw [if_pos hnb] at hc
      cases hc
    · rw [if_neg hnb] at hc
      rw [List.mem_map] at hc
      obtain ⟨f, _, hf⟩ := hc
      subst hf
      rfl

set_option maxRecDepth 100000 in
/-- Witness for `chunk_repo_field` at a concrete chunk. -/
theorem chunk_repo_field_witness :
    (extractGitMetadata "rp" true true none (some "https://origin/url") "t0").repo =
      "https://origin/url" ∧
    sampleChunkA.repo = "repo" :=
  ⟨(chunk_repo_field "rp" "t0" false true none "https://origin/url"
      "def f():\n    return 1" "a.py" ".py" "repo" gmFs sampleChunkA (by decide)).1,
   (chunk_repo_field "rp" "t0" false true none "https://origin/url"
      "def f():\n    return 1" "a.py" ".py" "repo" gmFs sampleChunkA (by decide)).2.2.2⟩

theorem hasFile_nil (es : List FSTree) : hasFile es [] = false := rfl

theorem hasFile_single (es : List FSTree) (n : String) :
    hasFile es [n] = es.any fun t =>
      match t with
      | .file m => m = n
      | .dir _ _ => false := rfl

theorem hasFile_cons (es : List FSTree) (d q0 : String) (q1 : List String) :
    hasFile es (d :: q0 :: q1) = es.any fun t =>
      match t with
      | .dir m cs => m = d && hasFile cs (q0 :: q1)
      | .file _ => false := rfl

/-- Unfolding of the walk on a file entry. -/
theorem walkOne_file (ve ex : List String) (n : String) :
    walkOne ve ex (FSTree.file n) = if fileExtLower n ∈ ve then [[n]] else [] := by
  rw [walkOne]

/-- Unfolding of the walk on a directory entry. -/
theorem walkOne_dir (ve ex : List String) (d : String) (cs : List FSTree) :
    walkOne ve ex (FSTree.dir d cs) =
      if d ∈ ex then []
      else (cs.map fun c => (walkOne ve ex c).map (d :: ·)).flatten := by
  rw [walkOne]
  by_cases hd : d ∈ ex
  · rw [if_pos hd, if_pos hd]
  · rw [if_neg hd, if_neg hd]
    rw [List.attach_map_val cs (fun c => (walkOne ve ex c).map (d :: ·))]

/-- Every path produced by the walk is non-empty. -/
theorem walkOne_ne_nil {ve ex : List String} {t : FSTree} {q : List String}
    (h : q ∈ walkOne ve ex t) : q ≠ [] := by
  cases t with
  | file n =>
    rw [walkOne_file] at h
    by_cases he : fileExtLower n ∈ ve
    · rw [if_pos he] at h
      simp at h
      simp [h]
    · rw [if_neg he] at h
      cases h
  | dir d cs =>
    rw [walkOne_dir] at h
    by_cases hd : d ∈ ex
    · rw [if_pos hd] at h
      cases h
    · rw [if_neg hd] at h
      rw [List.mem_flatten] at h
      obtain ⟨ls, hls, hq⟩ := h
      rw [List.mem_map] at hls
      obtain ⟨c, _, rfl⟩ := hls
      rw [List.mem_map] at hq
      obtain ⟨q', _, rfl⟩ := hq
      simp

/-- The walk over an entry list returns a path exactly when the tree has a
file there, no directory along the path is excluded, and the file name's
lower-cased extension is in the (already normalized) allow-list. -/
theorem walk_mem (ve ex : List String) (es : List FSTree) (p : List String) :
    p ∈ (es.map (walkOne ve ex)).flatten ↔
      hasFile es p = true ∧ (∀ d ∈ p.dropLast, d ∉ ex) ∧
        ∃ n, p.getLast? = some n ∧ fileExtLower n ∈ ve := by
  induction p generalizing es with
  | nil =>
    constructor
    · intro h
      rw [List.mem_flatten] at h
      obtain ⟨ls, hls, hq⟩ := h
      rw [List.mem_map] at hls
      obtain ⟨t, _, rfl⟩ := hls
      exact absurd rfl (walkOne_ne_nil hq)
    · rintro ⟨hf, -, -⟩
      rw [hasFile_nil] at hf
      cases hf
  | cons d q ih =>
    cases q with
    | nil =>
      constructor
      · intro h
        rw [List.mem_flatten] at h
        obtain ⟨ls, hls, hq⟩ := h
        rw [List.mem_map] at hls
        obtain ⟨t, hts, rfl⟩ := hls
        cases t with
        | file n =>
          rw [walkOne_file] at hq
          by_cases he : fileExtLower n ∈ ve
          · rw [if_pos he] at hq
            have hdn : d = n := by simpa using hq
            subst hdn
            refine ⟨?_, by simp, d, rfl, he⟩
            rw [hasFile_single]
            refine List.any_of_mem hts ?_
            simp
          · rw [if_neg he] at hq
            cases hq
        | dir m cs =>
          rw [walkOne_dir] at hq
          by_cases hd : m ∈ ex
          · rw [if_pos hd] at hq
            cases hq
          · rw [if_neg hd] at hq
            rw [List.mem_flatten] at hq
            obtain ⟨ls2, hls2, hq2⟩ := hq
            rw [List.mem_map] at hls2
            obtain ⟨c, _, rfl⟩ := hls2
            rw [List.mem_map] at hq2
            obtain ⟨q', hq', heq⟩ := hq2
            injection heq with hmd hq'eq
            exact absurd hq'eq (walkOne_ne_nil hq')
      · rintro ⟨hf, -, n, hn, hext⟩
        have hdn : d = n := by simpa using hn
        subst hdn
        rw [hasFile_single] at hf
        obtain ⟨t, hts, hmt⟩ := List.any_eq_true.mp hf
        cases t with
        | file m =>
          have hmd : m = d := by simpa using hmt
          subst hmd
          rw [List.mem_flatten]
          refine ⟨walkOne ve ex (FSTree.file m), List.mem_map_of_mem _ hts, ?_⟩
          rw [walkOne_file, if_pos hext]
          simp
        | dir m cs =>
          simp at hmt
    | cons q0 q1 =>
      constructor
      · intro h
        rw [List.mem_flatten] at h
        obtain ⟨ls, hls, hq⟩ := h
        rw [List.mem_map] at hls
        obtain ⟨t, hts, rfl⟩ := hls
        cases t with
        | file n =>
          rw [walkOne_file] at hq
          by_cases he : fileExtLower n ∈ ve
          · rw [if_pos he] at hq
            simp at hq
          · rw [if_neg he] at hq
            cases hq
        | dir m cs =>
          rw [walkOne_dir] at hq
          by_cases hd : m ∈ ex
          · rw [if_pos hd] at hq
            cases hq
          · rw [if_neg hd] at hq
            rw [List.mem_flatten] at hq
            obtain ⟨ls2, hls2, hq2⟩ := hq
            rw [List.mem_map] at hls2
            obtain ⟨c, hcs, rfl⟩ := hls2
            rw [List.mem_map] at hq2
            obtain ⟨q', hq', heq⟩ := hq2
            injection heq with hmd hq'eq
            subst hmd
            subst hq'eq
            have hsub : (q0 :: q1) ∈ (cs.map (walkOne ve ex)).flatten := by
              rw [List.mem_flatten]
              exact ⟨walkOne ve ex c, List.mem_map_of_mem _ hcs, hq'⟩
            obtain ⟨hf, hdl, hlast⟩ := (ih cs).mp hsub
            refine ⟨?_, ?_, ?_⟩
            · rw [hasFile_cons]
              refine List.any_of_mem hts ?_
              simp [hf]
            · intro x hx
              rw [show (m :: q0 :: q1).dropLast = m :: (q0 :: q1).dropLast from rfl] at hx
              rcases List.mem_cons.mp hx with h1 | h1
              · subst h1
                exact hd
              · exact hdl x h1
            · rw [show (m :: q0 :: q1).getLast? = (q0 :: q1).getLast? from rfl]
              exact hlast
      · rintro ⟨hf, hdl, n, hn, hext⟩
        rw [hasFile_cons] at hf
        obtain ⟨t, hts, hmt⟩ := List.any_eq_true.mp hf
        cases t with
        | file m =>
          simp at hmt
        | dir m cs =>
          obtain ⟨hmd, hfcs⟩ : m = d ∧ hasFile cs (q0 :: q1) = true := by simpa using hmt
          subst hmd
          have hdnotex : m ∉ ex := by
            apply hdl
            rw [show (m :: q0 :: q1).dropLast = m :: (q0 :: q1).dropLast from rfl]
            exact List.mem_cons_self _ _
          have hsub : (q0 :: q1) ∈ (cs.map (walkOne ve ex)).flatten := by
            apply (ih cs).mpr
            refine ⟨hfcs, ?_, n, ?_, hext⟩
            · intro x hx
              apply hdl
              rw [show (m :: q0 :: q1).dropLast = m :: (q0 :: q1).dropLast from rfl]
              exact List.mem_cons_of_mem _ hx
            · rw [show (m :: q0 :: q1).getLast? = (q0 :: q1).getLast? from rfl] at hn
              exact hn
          rw [List.mem_flatten] at hsub
          obtain ⟨ls2, hls2, hq2⟩ := hsub
          rw [List.mem_map] at hls2
          obtain ⟨c, hcs, rfl⟩ := hls2
          rw [List.mem_flatten]
          refine ⟨walkOne ve ex (FSTree.dir m cs), List.mem_map_of_mem _ hts, ?_⟩
          rw [walkOne_dir, if_neg hdnotex]
          rw [List.mem_flatten]
          refine ⟨(walkOne ve ex c).map (m :: ·), ?_, ?_⟩
          · exact List.mem_map_of_mem _ hcs
          · exact List.mem_map_of_mem _ hq2

/-- C9: `discover_code_files` returns exactly the paths of files under the
root whose lower-cased extension is in the dot-normalized allow-list and
that lie under no directory (at any depth) whose name appears in the
exclude list. -/
theorem discover_spec (extensions excludeDirs : List String) (rootEntries : List FSTree)
    (p : List String) :
    p ∈ discoverCodeFiles extensions excludeDirs rootEntries ↔
      hasFile rootEntries p = true ∧ (∀ d ∈ p.dropLast, d ∉ excludeDirs) ∧
        ∃ n, p.getLast? = some n ∧ fileExtLower n ∈ extensions.map normalizeExt := by
  show p ∈ (rootEntries.map (walkOne (extensions.map normalizeExt) excludeDirs)).flatten ↔ _
  exact walk_mem (extensions.map normalizeExt) excludeDirs rootEntries p
